import Mathlib

/-!
Verification of the Compilador-Mini-Lang front end: a shallow embedding of
the character-level lexer (`lexer.py`), the AST-producing recursive-descent
parser (`parser.py`) and the scope-chained symbol table (`symbols.py`),
together with theorems about scope handling, block parsing, expression
parsing, identifier interning and comment handling.
-/

namespace MiniLang

/-- Tag discriminants of `Token.tag` (class `Tag` in `lexer.py`):
`Tag.__eq__` compares the numeric `value` field, so two tags are equal
exactly when they denote the same discriminant; a single-character token
carries its character (`ord`), the end marker carries value `0`, and the
named categories carry the fixed codes `256..`. The `varT`, `setT`,
`printT` and `strLitT` discriminants are modelled from the spec:
`parser.py` dispatches on `Tags.VAR`, `Tags.SET`, `Tags.PRINT` and
`Tags.STR_LIT`, whose declarations are not among the repository files. -/
inductive TagT where
  | numT | idT | typeT | trueT | falseT
  | varT | setT | printT | strLitT
  | och (c : Char)
  | eofT
deriving DecidableEq, Repr

/-- Tokens (`Token`, `Id`, `Type`, `Num` in `lexer.py`): a tag plus an
optional payload. `Id`/`Type` carry the lexeme, `Num` the integer value.
The `strlit`, `kvar`, `kset` and `kprint` variants are modelled from the
spec (their tag constants are missing from the repository files; the
grammar of §4.4 requires keyword-led statements and string literals). -/
inductive Tok where
  | num (v : Int)
  | id (n : String)
  | type (n : String)
  | ktrue
  | kfalse
  | kvar
  | kset
  | kprint
  | strlit (s : String)
  | op (c : Char)
  | eof
deriving DecidableEq, Repr

/-- The discriminant of a token's tag. -/
def Tok.tagOf : Tok → TagT
  | .num _ => .numT
  | .id _ => .idT
  | .type _ => .typeT
  | .ktrue => .trueT
  | .kfalse => .falseT
  | .kvar => .varT
  | .kset => .setT
  | .kprint => .printT
  | .strlit _ => .strLitT
  | .op c => .och c
  | .eof => .eofT

/-- The tag's `name` field: what `Token.__eq__` and `Tag.__eq__` compare
against a string operand, and what `Token.__str__` falls back to. -/
def TagT.tname : TagT → String
  | .numT => "NUM"
  | .idT => "ID"
  | .typeT => "TYPE"
  | .trueT => "TRUE"
  | .falseT => "FALSE"
  | .varT => "VAR"
  | .setT => "SET"
  | .printT => "PRINT"
  | .strLitT => "STR_LIT"
  | .och c => String.singleton c
  | .eofT => ""

/-- The tag name of a token, used by the parser's `== "<string>"` checks. -/
def Tok.tagName (t : Tok) : String := t.tagOf.tname

/-- Python `str(token)`: `Id.__str__` and `Type.__str__` return the lexeme,
every other token falls back to the tag name. -/
def Tok.toStr : Tok → String
  | .id n => n
  | .type n => n
  | t => t.tagName

/-- The `value` attribute of a `Num` token (only read under a NUM guard). -/
def Tok.numVal : Tok → Int
  | .num v => v
  | _ => 0

/-- The `value` attribute of a string-literal token (only read under a
STR_LIT guard; the token variant itself is modelled from the spec). -/
def Tok.strVal : Tok → String
  | .strlit s => s
  | _ => ""

/-- `Symbol` from `symbols.py`: a declared variable's name and type. -/
structure Symbol where
  var : String
  type : String
deriving DecidableEq, Repr

/-- `SymTable` from `symbols.py`: one scope's `table` (a Python dict,
modelled as an insertion-ordered association list with unique keys) plus
the `previous` reference to the enclosing scope; `previous = None` is the
`glob` variant (the outermost, global scope). -/
inductive SymTable where
  | glob (table : List (String × Symbol))
  | nested (table : List (String × Symbol)) (previous : SymTable)
deriving DecidableEq, Repr

/-- The current scope's own mapping. -/
def SymTable.table : SymTable → List (String × Symbol)
  | .glob t => t
  | .nested t _ => t

/-- Replace the current scope's mapping, keeping the chain. -/
def SymTable.withTable : SymTable → List (String × Symbol) → SymTable
  | .glob _, t => .glob t
  | .nested _ p, t => .nested t p

/-- `SymTable.insert`: returns `false` without mutating when the name is
already a key of the current scope's table; otherwise adds the entry and
returns `true`. The (possibly) updated table is returned alongside. -/
def SymTable.insert (st : SymTable) (id : String) (s : Symbol) : Bool × SymTable :=
  if (st.table.lookup id).isSome then (false, st)
  else (true, st.withTable (st.table ++ [(id, s)]))

/-- `SymTable.find`: looks in the current scope's table, then follows the
`previous` references outward; the first hit wins, `none` when the chain
is exhausted. -/
def SymTable.find : SymTable → String → Option Symbol
  | .glob t, id => t.lookup id
  | .nested t p, id =>
    match t.lookup id with
    | some s => some s
    | none => p.find id

/-- The chain of scope mappings, innermost scope first. -/
def SymTable.tables : SymTable → List (List (String × Symbol))
  | .glob t => [t]
  | .nested t p => t :: p.tables

/-- Modelled from the spec, for comparison with `SymTable.find`: "searches
current scope, then each enclosing scope outward, returns the first match
or absent if the chain is exhausted", stated over the chain of scopes. -/
def lookupChain : List (List (String × Symbol)) → String → Option Symbol
  | [], _ => none
  | t :: rest, id =>
    match t.lookup id with
    | some s => some s
    | none => lookupChain rest id

theorem find_eq_lookupChain (st : SymTable) (id : String) :
    st.find id = lookupChain st.tables id := by
  induction st with
  | glob t =>
    simp [SymTable.find, SymTable.tables, lookupChain]
    cases t.lookup id <;> rfl
  | nested t p ih =>
    simp only [SymTable.find, SymTable.tables, lookupChain]
    cases t.lookup id <;> simp [ih]

theorem lookupChain_isNone (l : List (List (String × Symbol))) (id : String) :
    (lookupChain l id).isNone = l.all (fun t => (t.lookup id).isNone) := by
  induction l with
  | nil => rfl
  | cons t rest ih =>
    simp only [lookupChain, List.all_cons]
    cases h : t.lookup id <;> simp [ih]

/-- C6: `SymTable.find` returns the symbol bound to the name in the nearest
scope that contains it, searching the current scope first and then each
enclosing scope outward via the `previous` links; it returns `none` exactly
when no scope in the chain contains the name; and a binding in the
innermost scope is returned no matter what the outer scopes bind
(a shadowed outer binding is never returned while an inner one exists). -/
theorem c6_find_nearest_scope (st : SymTable) (id : String) :
    st.find id = lookupChain st.tables id ∧
    (st.find id).isNone = st.tables.all (fun t => (t.lookup id).isNone) ∧
    ∀ (t : List (String × Symbol)) (p : SymTable) (s : Symbol),
      (SymTable.nested ((id, s) :: t) p).find id = some s := by
  refine ⟨find_eq_lookupChain st id, ?_, ?_⟩
  · rw [find_eq_lookupChain]
    exact lookupChain_isNone st.tables id
  · intro t p s
    simp [SymTable.find, List.lookup]

/-- Literal payloads (`Literal.value` in `ast.py` is untyped): the parser
builds integer literals, string literals, and Python `None` (the legacy
list-declaration path). -/
inductive LitVal where
  | int (v : Int)
  | str (s : String)
  | none
deriving DecidableEq, Repr

/-- The AST node variants of `ast.py` that the parser constructs. -/
inductive AST where
  | literal (v : LitVal)
  | ident (name : String)
  | binOp (left : AST) (op : String) (right : AST)
  | varDecl (name : String) (varType : String) (value : AST)
  | assignment (name : String) (value : AST)
  | printStmt (expr : AST)
  | block (statements : List AST)
  | program (statements : List AST)
deriving Repr

/-- The parser's state: the current lookahead token, the remaining token
stream (the lexer is abstracted to token level here: `scan` pops the next
token, or returns the end marker once the stream is exhausted, as the
lexer does), the current scope `_sym_table`, and the line number the lexer
would report (`self._lexer.line`), held abstract at token level. -/
structure PSt where
  look : Tok
  toks : List Tok
  symtab : SymTable
  line : Nat
deriving Repr

/-- `ParseError` payloads, one constructor per `raise ParseError` site of
`parser.py`; the constructor arguments are exactly the data interpolated
into that site's message. `bare` is the argumentless `raise ParseError()`
in `Parser.match`; `trailing` and `dupVar` messages carry no line number. -/
inductive PErr where
  | bare
  | trailing
  | dupVar (name : String)
  | missingClose (line : Nat)
  | expectedValue (line : Nat)
deriving DecidableEq, Repr

/-- The line number an error's message carries, if any. -/
def PErr.lineOf : PErr → Option Nat
  | .missingClose l => some l
  | .expectedValue l => some l
  | _ => .none

/-- Result of a parser action: success with a value and the updated parser
state; a raised `ParseError` together with the parser state at the raise
site (a Python exception propagates while `self` keeps the state it had
when the raise happened); or `stuck` when the step budget runs out (the
budget models nontermination and is irrelevant once it is large enough). -/
inductive PRes (α : Type) where
  | ok (a : α) (st : PSt)
  | err (e : PErr) (st : PSt)
  | stuck

/-- Sequencing: propagate an error or exhaustion, otherwise continue. -/
def PRes.bind {α β : Type} (r : PRes α) (f : α → PSt → PRes β) : PRes β :=
  match r with
  | .ok a st => f a st
  | .err e st => .err e st
  | .stuck => .stuck

/-- True exactly on the `err` outcome. -/
def PRes.isErr {α : Type} : PRes α → Bool
  | .err _ _ => true
  | _ => false

/-- `self._lookahead = self._lexer.scan()` at token level. -/
def PSt.advance (st : PSt) : PSt :=
  { st with look := st.toks.headD .eof, toks := st.toks.tail }

namespace Parser

/-- `Parser.match`: if the expected tag equals the lookahead's tag (by tag
value), advance; otherwise raise a bare `ParseError()` with no message. -/
def matchTok (t : TagT) (st : PSt) : PRes Unit :=
  if st.look.tagOf = t then .ok () st.advance else .err .bare st

/-- The second half of `Parser.factor`: after the optional sign was
consumed, dispatch on the lookahead's tag; the sign multiplier is applied
to a NUM literal only, and silently unused in the other branches. -/
def factorTail (modifier : Int) (st : PSt) : PRes AST :=
  if st.look.tagOf = .numT then
    let v := st.look.numVal * modifier
    (matchTok .numT st).bind fun _ st1 => .ok (.literal (.int v)) st1
  else if st.look.tagOf = .strLitT then
    let s := st.look.strVal
    (matchTok .strLitT st).bind fun _ st1 => .ok (.literal (.str s)) st1
  else if st.look.tagOf = .idT then
    let n := st.look.toStr
    (matchTok .idT st).bind fun _ st1 => .ok (.ident n) st1
  else
    .err (.expectedValue st.line) st

/-- `Parser.factor`: an optional leading `+`/`-` sets a `1`/`-1` modifier,
then a number (modifier folded in), string literal or identifier; anything
else raises `ParseError` carrying the current line. -/
def factor (st : PSt) : PRes AST :=
  if st.look.tagName = "+" then
    (matchTok (.och '+') st).bind fun _ st1 => factorTail 1 st1
  else if st.look.tagName = "-" then
    (matchTok (.och '-') st).bind fun _ st1 => factorTail (-1) st1
  else
    factorTail 1 st

/-- The `while True` loop of `Parser.opers`: as long as the lookahead is
`+` or `-`, consume it, parse the next factor, and fold it in as the right
child of a `BinOp` whose left child is the whole tree built so far. -/
def opersLoop : Nat → AST → PSt → PRes AST
  | 0, _, _ => .stuck
  | fuel + 1, left, st =>
    if st.look.tagName = "+" then
      (matchTok (.och '+') st).bind fun _ st1 =>
        (factor st1).bind fun right st2 =>
          opersLoop fuel (.binOp left "+" right) st2
    else if st.look.tagName = "-" then
      (matchTok (.och '-') st).bind fun _ st1 =>
        (factor st1).bind fun right st2 =>
          opersLoop fuel (.binOp left "-" right) st2
    else
      .ok left st

/-- `Parser.opers`: a `factor` followed by the left-associative `+`/`-`
chain. -/
def opers (fuel : Nat) (st : PSt) : PRes AST :=
  (factor st).bind fun left st1 => opersLoop fuel left st1

/-- `Parser.var_decl`: `var ID : TYPE = opers ;`, then insert the name into
the current scope; a `false` from `SymTable.insert` raises the duplicate
declaration `ParseError` (its message carries the name, no line number).
The leading `var` keyword tag is modelled from the spec. -/
def var_decl (fuel : Nat) (st : PSt) : PRes AST :=
  (matchTok .varT st).bind fun _ st1 =>
    let name := st1.look.toStr
    (matchTok .idT st1).bind fun _ st2 =>
      (matchTok (.och ':') st2).bind fun _ st3 =>
        let varType := st3.look.toStr
        (matchTok .typeT st3).bind fun _ st4 =>
          (matchTok (.och '=') st4).bind fun _ st5 =>
            (opers fuel st5).bind fun exprNode st6 =>
              (matchTok (.och ';') st6).bind fun _ st7 =>
                match st7.symtab.insert name ⟨name, varType⟩ with
                | (true, tab) =>
                  .ok (.varDecl name varType exprNode) { st7 with symtab := tab }
                | (false, _) => .err (.dupVar name) st7

/-- `Parser.assignment`: `set ID = opers ;` (the `set` tag is modelled from
the spec). -/
def assignment (fuel : Nat) (st : PSt) : PRes AST :=
  (matchTok .setT st).bind fun _ st1 =>
    let name := st1.look.toStr
    (matchTok .idT st1).bind fun _ st2 =>
      (matchTok (.och '=') st2).bind fun _ st3 =>
        (opers fuel st3).bind fun exprNode st4 =>
          (matchTok (.och ';') st4).bind fun _ st5 =>
            .ok (.assignment name exprNode) st5

/-- `Parser.print_stmt`: `print opers ;` (the `print` tag is modelled from
the spec). -/
def print_stmt (fuel : Nat) (st : PSt) : PRes AST :=
  (matchTok .printT st).bind fun _ st1 =>
    (opers fuel st1).bind fun exprNode st2 =>
      (matchTok (.och ';') st2).bind fun _ st3 =>
        .ok (.printStmt exprNode) st3

mutual

/-- `Parser.stmts`: the statement loop, dispatching on the lookahead.
Stray `;` tokens are consumed and skipped, `{` starts a block,
`var`/`set`/`print` start keyword statements, and anything else ends the
list (the empty production). -/
def stmts : Nat → PSt → PRes (List AST)
  | 0, _ => .stuck
  | fuel + 1, st =>
    if st.look.tagName = ";" then
      (matchTok (.och ';') st).bind fun _ st1 => stmts fuel st1
    else if st.look.tagName = "\x7b" then
      (block fuel st).bind fun b st1 =>
        (stmts fuel st1).bind fun rest st2 => .ok (b :: rest) st2
    else if st.look.tagOf = .varT then
      (var_decl fuel st).bind fun d st1 =>
        (stmts fuel st1).bind fun rest st2 => .ok (d :: rest) st2
    else if st.look.tagOf = .setT then
      (assignment fuel st).bind fun a st1 =>
        (stmts fuel st1).bind fun rest st2 => .ok (a :: rest) st2
    else if st.look.tagOf = .printT then
      (print_stmt fuel st).bind fun p st1 =>
        (stmts fuel st1).bind fun rest st2 => .ok (p :: rest) st2
    else
      .ok [] st

/-- `Parser.block`: consume `{`, save the current scope, make a fresh
nested scope current, parse the inner `stmts`, require and consume `}`,
then restore the saved scope. The restore is on this success path only: a
raise from the inner statements or from the `}` check propagates with the
nested scope still installed. -/
def block : Nat → PSt → PRes AST
  | 0, _ => .stuck
  | fuel + 1, st =>
    (matchTok (.och '{') st).bind fun _ st1 =>
      let saved := st1.symtab
      let st2 := { st1 with symtab := .nested [] saved }
      (stmts fuel st2).bind fun cmds st3 =>
        if st3.look.tagName ≠ "\x7d" then .err (.missingClose st3.line) st3
        else
          (matchTok (.och '}') st3).bind fun _ st4 =>
            .ok (.block cmds) { st4 with symtab := saved }

end

/-- `Parser.program`: `stmts` wrapped into the `Program` root node. -/
def program (fuel : Nat) (st : PSt) : PRes AST :=
  (stmts fuel st).bind fun cmds st1 => .ok (.program cmds) st1

/-- `Parser.start`: prime the lookahead with the first token, parse
`program`, then require the lookahead to be the end marker; trailing
tokens raise the trailing-input `ParseError` (whose message carries no
line number). A fresh `Parser` starts with `SymTable()`, the empty global
scope. -/
def start (fuel : Nat) (ts : List Tok) (tab : SymTable) (line : Nat) : PRes AST :=
  let st : PSt := { look := ts.headD .eof, toks := ts.tail, symtab := tab, line := line }
  (program fuel st).bind fun astRoot st1 =>
    if st1.look.tagName ≠ "" then .err .trailing st1
    else .ok astRoot st1

end Parser

/-- A parser state whose lookahead has been primed from the front of a
token stream: exactly what `Parser.start` builds, and what each
`advance` step reproduces for the remaining stream. -/
def feed (ts : List Tok) (stab : SymTable) (L : Nat) : PSt :=
  { look := ts.headD .eof, toks := ts.tail, symtab := stab, line := L }

/-- Token stream of a `+`/`-` chain continuation: each pair is the operator
character followed by the next number. -/
def chainToks : List (Char × Int) → List Tok
  | [] => []
  | p :: ps => Tok.op p.1 :: Tok.num p.2 :: chainToks ps

/-- The left-leaning tree `opers` should build: each successive operator
takes the whole tree built so far as its left child. -/
def leftFold (a : AST) : List (Char × Int) → AST
  | [] => a
  | p :: ps =>
    leftFold (AST.binOp a (String.singleton p.1) (AST.literal (LitVal.int p.2))) ps

theorem singleton_plus : String.singleton '+' = "+" := rfl

theorem singleton_minus : String.singleton '-' = "-" := rfl

theorem singleton_lbrace : String.singleton '\x7b' = "\x7b" := rfl

theorem singleton_rbrace : String.singleton '\x7d' = "\x7d" := rfl

theorem singleton_semi : String.singleton ';' = ";" := rfl

theorem opersLoop_chain (ps : List (Char × Int)) :
    ∀ (fuel : Nat) (a : AST) (r : List Tok) (stab : SymTable) (L : Nat),
      (∀ p ∈ ps, p.1 = '+' ∨ p.1 = '-') →
      (r.head?.getD Tok.eof).tagName ≠ "+" →
      (r.head?.getD Tok.eof).tagName ≠ "-" →
      ps.length < fuel →
      Parser.opersLoop fuel a (feed (chainToks ps ++ r) stab L) =
        .ok (leftFold a ps) (feed r stab L) := by
  induction ps with
  | nil =>
    intro fuel a r stab L _ h2 h3 hf
    obtain ⟨m, rfl⟩ : ∃ m, fuel = m + 1 := ⟨fuel - 1, by omega⟩
    simp [Parser.opersLoop, chainToks, leftFold, feed, h2, h3]
  | cons p ps ih =>
    intro fuel a r stab L h1 h2 h3 hf
    obtain ⟨m, rfl⟩ : ∃ m, fuel = m + 1 := ⟨fuel - 1, by omega⟩
    obtain ⟨c, v⟩ := p
    have hps : ∀ q ∈ ps, q.1 = '+' ∨ q.1 = '-' := fun q hq => h1 q (List.mem_cons_of_mem _ hq)
    have hm : ps.length < m := by simpa [List.length_cons] using hf
    rcases h1 ⟨c, v⟩ (List.mem_cons_self _ _) with hc | hc <;> subst hc
    · show Parser.opersLoop (m + 1) a
        (feed (Tok.op '+' :: Tok.num v :: chainToks ps ++ r) stab L) = _
      simp only [Parser.opersLoop, feed, List.headD_cons, List.tail_cons, Tok.tagName,
        Tok.tagOf, TagT.tname, singleton_plus, Parser.matchTok, PSt.advance,
        Parser.factor, Parser.factorTail, Tok.numVal, PRes.bind, leftFold]
      norm_num
      simpa [feed, leftFold, singleton_plus] using
        ih m (AST.binOp a "+" (AST.literal (LitVal.int v))) r stab L hps h2 h3 hm
    · show Parser.opersLoop (m + 1) a
        (feed (Tok.op '-' :: Tok.num v :: chainToks ps ++ r) stab L) = _
      simp only [Parser.opersLoop, feed, List.headD_cons, List.tail_cons, Tok.tagName,
        Tok.tagOf, TagT.tname, singleton_minus, Parser.matchTok, PSt.advance,
        Parser.factor, Parser.factorTail, Tok.numVal, PRes.bind, leftFold]
      norm_num
      simpa [feed, leftFold, singleton_minus] using
        ih m (AST.binOp a "-" (AST.literal (LitVal.int v))) r stab L hps h2 h3 hm

/-- C5: `Parser.opers` builds a left-leaning `BinOp` tree over a chain of
`+`/`-` at equal precedence: starting from a number and any chain of
operator/number pairs, the result is the left fold in which each successive
operator takes the whole tree built so far as its left child (so
NUM 1 `-` NUM 2 `-` NUM 3 gives `BinOp (BinOp 1 - 2) - 3`). -/
theorem c5_opers_left_assoc (v : Int) (ps : List (Char × Int)) (r : List Tok)
    (stab : SymTable) (L : Nat) (fuel : Nat)
    (h1 : ∀ p ∈ ps, p.1 = '+' ∨ p.1 = '-')
    (h2 : (r.head?.getD Tok.eof).tagName ≠ "+")
    (h3 : (r.head?.getD Tok.eof).tagName ≠ "-")
    (hf : ps.length < fuel) :
    Parser.opers fuel (feed (Tok.num v :: chainToks ps ++ r) stab L) =
      .ok (leftFold (AST.literal (LitVal.int v)) ps) (feed r stab L) := by
  show Parser.opers fuel (feed (Tok.num v :: (chainToks ps ++ r)) stab L) = _
  simp only [Parser.opers, feed, List.headD_cons, List.tail_cons, Parser.factor,
    Parser.factorTail, Tok.tagName, Tok.tagOf, TagT.tname, Tok.numVal,
    Parser.matchTok, PSt.advance, PRes.bind]
  norm_num
  simpa [feed] using
    opersLoop_chain ps fuel (AST.literal (LitVal.int v)) r stab L h1 h2 h3 hf

/-- C5 witness: the chain NUM 1 `-` NUM 2 `-` NUM 3 parses to
`BinOp (BinOp (Literal 1) "-" (Literal 2)) "-" (Literal 3)`. -/
theorem c5_opers_left_assoc_witness :
    Parser.opers 10
        (feed [Tok.num 1, Tok.op '-', Tok.num 2, Tok.op '-', Tok.num 3]
          (SymTable.glob []) 1) =
      .ok
        (AST.binOp
          (AST.binOp (AST.literal (LitVal.int 1)) "-" (AST.literal (LitVal.int 2)))
          "-" (AST.literal (LitVal.int 3)))
        (feed [] (SymTable.glob []) 1) := by
  exact c5_opers_left_assoc 1 [('-', 2), ('-', 3)] [] (SymTable.glob []) 1 10
    (by decide) (by decide) (by decide) (by decide)

/-- C4 counterexample: a leading `-` before an identifier does not make
`Parser.factor` fail — the sign is consumed and the unsigned `Identifier`
node is returned, contrary to the claimed syntax error at the sign. -/
theorem c4_counterexample :
    Parser.factor (feed [Tok.op '-', Tok.id "x"] (SymTable.glob []) 1) =
      PRes.ok (AST.ident "x") (feed [] (SymTable.glob []) 1) ∧
    (Parser.factor (feed [Tok.op '-', Tok.id "x"] (SymTable.glob []) 1)).isErr
      = false := ⟨rfl, rfl⟩

/-- C4 (amended): in `Parser.factor` a leading `+`/`-` before a NUMBER
literal is folded into the literal's value (`Literal (-n)`, no unary node);
a leading sign before an identifier or string literal is accepted: the sign
is consumed and silently discarded and the unsigned node is returned; an
unsigned identifier or string still parses; and only when the token after
the optional sign is none of NUMBER/STRING/ID does `factor` raise a
`ParseError` carrying the current line. -/
theorem c4_factor_sign (v : Int) (n s : String) (r : List Tok)
    (stab : SymTable) (L : Nat) :
    Parser.factor (feed (Tok.op '-' :: Tok.num v :: r) stab L) =
      PRes.ok (AST.literal (LitVal.int (-v))) (feed r stab L) ∧
    Parser.factor (feed (Tok.op '+' :: Tok.num v :: r) stab L) =
      PRes.ok (AST.literal (LitVal.int v)) (feed r stab L) ∧
    Parser.factor (feed (Tok.op '-' :: Tok.id n :: r) stab L) =
      PRes.ok (AST.ident n) (feed r stab L) ∧
    Parser.factor (feed (Tok.op '-' :: Tok.strlit s :: r) stab L) =
      PRes.ok (AST.literal (LitVal.str s)) (feed r stab L) ∧
    Parser.factor (feed (Tok.id n :: r) stab L) =
      PRes.ok (AST.ident n) (feed r stab L) ∧
    Parser.factor (feed (Tok.strlit s :: r) stab L) =
      PRes.ok (AST.literal (LitVal.str s)) (feed r stab L) ∧
    Parser.factor (feed (Tok.op '-' :: Tok.op ';' :: r) stab L) =
      PRes.err (PErr.expectedValue L) (feed (Tok.op ';' :: r) stab L) := by
  refine ⟨?_, ?_, ?_, ?_, ?_, ?_, ?_⟩ <;>
    simp [Parser.factor, Parser.factorTail, Parser.matchTok, PRes.bind, feed,
      PSt.advance, Tok.tagName, Tok.tagOf, TagT.tname, Tok.numVal, Tok.strVal,
      Tok.toStr, singleton_plus, singleton_minus]

/-- C3 counterexample: when an inner statement raises (here the duplicate
declaration of `x` inside the block), `Parser.block` propagates the error
with the nested scope still installed — the parser state at the raise has
symbol table `nested [("x", _)] (glob [])`, not the entry table `glob []`,
so the scope reference is not restored on this exit path. -/
theorem c3_counterexample :
    Parser.block 20
        (feed
          [Tok.op '{', Tok.kvar, Tok.id "x", Tok.op ':', Tok.type "int",
            Tok.op '=', Tok.num 1, Tok.op ';', Tok.kvar, Tok.id "x",
            Tok.op ':', Tok.type "int", Tok.op '=', Tok.num 2, Tok.op ';',
            Tok.op '\x7d'] (SymTable.glob []) 1) =
      PRes.err (PErr.dupVar "x")
        { look := Tok.op '\x7d', toks := [],
          symtab :=
            SymTable.nested [("x", ⟨"x", "int"⟩)] (SymTable.glob []),
          line := 1 } ∧
    (SymTable.nested [("x", ⟨"x", "int"⟩)] (SymTable.glob [])
        == SymTable.glob []) = false := ⟨rfl, rfl⟩

/-- C3 (amended): whenever `Parser.block` returns successfully, the symbol
table of the resulting state is exactly the one current on entry (the saved
scope is restored); on the raising exit paths the nested scope remains
current (see the counterexample) — all parse errors are fatal, so no caller
continues with the stale scope. -/
theorem c3_block_scope_on_success (fuel : Nat) (st : PSt) (b : AST) (st' : PSt)
    (h : Parser.block fuel st = PRes.ok b st') : st'.symtab = st.symtab := by
  cases fuel with
  | zero => simp [Parser.block] at h
  | succ m =>
    simp only [Parser.block, Parser.matchTok] at h
    split at h
    case isFalse hc => exact PRes.noConfusion h
    case isTrue hc =>
      simp only [PRes.bind] at h
      cases hs :
          Parser.stmts m
            { st.advance with symtab := SymTable.nested [] st.advance.symtab } with
      | stuck => rw [hs] at h; exact PRes.noConfusion h
      | err e s3 => rw [hs] at h; exact PRes.noConfusion h
      | ok cmds st3 =>
        rw [hs] at h
        simp only [PRes.bind] at h
        split at h
        case isTrue hcl => exact PRes.noConfusion h
        case isFalse hcl =>
          split at h
          next a st4 heq =>
            split at heq
            · injection heq with ha hst4
              subst hst4
              injection h with hb hst
              subst hst
              simp [PSt.advance]
            · exact PRes.noConfusion heq
          next e st4 heq => exact PRes.noConfusion h
          next heq => exact PRes.noConfusion h

/-- C3 witness: a concrete successful block parse restores the entry
scope: the final state's symbol table equals the entry state's. -/
theorem c3_block_scope_witness :
    (feed [] (SymTable.glob [("y", ⟨"y", "int"⟩)]) 1).symtab =
      (feed [Tok.op '\x7b', Tok.op '\x7d']
        (SymTable.glob [("y", ⟨"y", "int"⟩)]) 1).symtab :=
  c3_block_scope_on_success 9
    (feed [Tok.op '\x7b', Tok.op '\x7d'] (SymTable.glob [("y", ⟨"y", "int"⟩)]) 1)
    (AST.block [])
    (feed [] (SymTable.glob [("y", ⟨"y", "int"⟩)]) 1) rfl

/-- C1: once `var x : int = 1;` has succeeded in the current scope (so the
current scope's own table maps `"x"`), the same declaration again in that
scope parses through its final `;`, gets `false` from `SymTable.insert`,
and raises the duplicate-declaration `ParseError`; while the program
`var x : int = 1; { var x : int = 2; }`, whose second declaration sits in a
nested block, parses successfully — the nested-scope insert succeeds even
though the outer scope binds `"x"`, and `find` then returns the inner
symbol (shadowing). -/
theorem c1_duplicate_and_shadowing (stab : SymTable) (v : Int) (L fuel : Nat)
    (s1 s2 : Symbol) (h : (stab.table.lookup "x").isSome = true)
    (hf : 0 < fuel) :
    Parser.var_decl fuel
        (feed [Tok.kvar, Tok.id "x", Tok.op ':', Tok.type "int", Tok.op '=',
          Tok.num v, Tok.op ';'] stab L) =
      PRes.err (PErr.dupVar "x") (feed [] stab L) ∧
    Parser.start 20
        [Tok.kvar, Tok.id "x", Tok.op ':', Tok.type "int", Tok.op '=',
          Tok.num 1, Tok.op ';', Tok.op '\x7b', Tok.kvar, Tok.id "x",
          Tok.op ':', Tok.type "int", Tok.op '=', Tok.num 2, Tok.op ';',
          Tok.op '\x7d'] (SymTable.glob []) 1 =
      PRes.ok
        (AST.program
          [AST.varDecl "x" "int" (AST.literal (LitVal.int 1)),
            AST.block [AST.varDecl "x" "int" (AST.literal (LitVal.int 2))]])
        (feed [] (SymTable.glob [("x", ⟨"x", "int"⟩)]) 1) ∧
    (SymTable.nested [] (SymTable.glob [("x", s1)])).insert "x" s2 =
      (true, SymTable.nested [("x", s2)] (SymTable.glob [("x", s1)])) ∧
    (SymTable.nested [("x", s2)] (SymTable.glob [("x", s1)])).find "x" =
      some s2 := by
  obtain ⟨m, rfl⟩ : ∃ m, fuel = m + 1 := ⟨fuel - 1, by omega⟩
  refine ⟨?_, rfl, rfl, rfl⟩
  simp [Parser.var_decl, Parser.matchTok, PRes.bind, feed, PSt.advance,
    Parser.opers, Parser.opersLoop, Parser.factor, Parser.factorTail,
    Tok.tagName, Tok.tagOf, TagT.tname, Tok.numVal, Tok.toStr,
    singleton_plus, singleton_minus, singleton_semi,
    SymTable.insert, h]

/-- C1 witness: the duplicate-declaration error and the nested shadowing
success at concrete inputs. -/
theorem c1_duplicate_witness :
    Parser.var_decl 5
        (feed [Tok.kvar, Tok.id "x", Tok.op ':', Tok.type "int", Tok.op '=',
          Tok.num 2, Tok.op ';'] (SymTable.glob [("x", ⟨"x", "int"⟩)]) 1) =
      PRes.err (PErr.dupVar "x")
        (feed [] (SymTable.glob [("x", ⟨"x", "int"⟩)]) 1) ∧
    Parser.start 20
        [Tok.kvar, Tok.id "x", Tok.op ':', Tok.type "int", Tok.op '=',
          Tok.num 1, Tok.op ';', Tok.op '\x7b', Tok.kvar, Tok.id "x",
          Tok.op ':', Tok.type "int", Tok.op '=', Tok.num 2, Tok.op ';',
          Tok.op '\x7d'] (SymTable.glob []) 1 =
      PRes.ok
        (AST.program
          [AST.varDecl "x" "int" (AST.literal (LitVal.int 1)),
            AST.block [AST.varDecl "x" "int" (AST.literal (LitVal.int 2))]])
        (feed [] (SymTable.glob [("x", ⟨"x", "int"⟩)]) 1) ∧
    (SymTable.nested [] (SymTable.glob [("x", ⟨"x", "int"⟩)])).insert "x"
        ⟨"x", "int"⟩ =
      (true,
        SymTable.nested [("x", ⟨"x", "int"⟩)]
          (SymTable.glob [("x", ⟨"x", "int"⟩)])) ∧
    (SymTable.nested [("x", ⟨"x", "int"⟩)]
          (SymTable.glob [("x", ⟨"x", "int"⟩)])).find "x" =
      some ⟨"x", "int"⟩ :=
  c1_duplicate_and_shadowing (SymTable.glob [("x", ⟨"x", "int"⟩)]) 2 1 5
    ⟨"x", "int"⟩ ⟨"x", "int"⟩ rfl (by omega)

/-- A forest of well-nested brace pairs with nothing but nested pairs
between them: `grow c r` is one `{ c }` block followed by the rest `r`. -/
inductive BForest where
  | nil
  | grow (children : BForest) (rest : BForest)

/-- The token stream of a brace forest. -/
def BForest.toks : BForest → List Tok
  | .nil => []
  | .grow c r => Tok.op '\x7b' :: (c.toks ++ Tok.op '\x7d' :: r.toks)

/-- The number of blocks in the forest. -/
def BForest.size : BForest → Nat
  | .nil => 0
  | .grow c r => 1 + c.size + r.size

/-- The statement list the parser builds for a forest: one `Block` per
pair, holding the nested blocks. -/
def BForest.asts : BForest → List AST
  | .nil => []
  | .grow c r => AST.block c.asts :: r.asts

/-- Tokens on which `Parser.stmts` takes its empty production. -/
def notStarter (t : Tok) : Prop :=
  t.tagName ≠ ";" ∧ t.tagName ≠ "\x7b" ∧ t.tagOf ≠ TagT.varT ∧
    t.tagOf ≠ TagT.setT ∧ t.tagOf ≠ TagT.printT

instance (t : Tok) : Decidable (notStarter t) := by
  unfold notStarter
  infer_instance

theorem notStarter_rbrace : notStarter (Tok.op '\x7d') := by decide

theorem notStarter_eof : notStarter Tok.eof := by decide

theorem stmts_braces (f : BForest) :
    ∀ (n : Nat) (r : List Tok) (stab : SymTable) (L : Nat),
      2 * f.size < n →
      notStarter (r.head?.getD Tok.eof) →
      Parser.stmts n (feed (f.toks ++ r) stab L) =
        .ok f.asts (feed r stab L) := by
  induction f with
  | nil =>
    intro n r stab L hn hns
    obtain ⟨m, rfl⟩ : ∃ m, n = m + 1 := ⟨n - 1, by omega⟩
    obtain ⟨h1, h2, h3, h4, h5⟩ := hns
    simp [Parser.stmts, BForest.toks, BForest.asts, feed, h1, h2, h3, h4, h5]
  | grow c rf ihc ihr =>
    intro n r stab L hn hns
    have hn3 : 3 ≤ n := by simp [BForest.size] at hn; omega
    obtain ⟨k, rfl⟩ : ∃ k, n = k + 1 + 1 := ⟨n - 2, by omega⟩
    have hc2 : 2 * c.size < k := by simp [BForest.size] at hn; omega
    have hr2 : 2 * rf.size < k + 1 := by simp [BForest.size] at hn; omega
    have hstep1 :=
      ihc k (Tok.op '\x7d' :: (rf.toks ++ r)) (SymTable.nested [] stab) L hc2
        notStarter_rbrace
    have hstep2 := ihr (k + 1) r stab L hr2 hns
    have hGT :
        (BForest.grow c rf).toks ++ r =
          Tok.op '\x7b' :: (c.toks ++ Tok.op '\x7d' :: (rf.toks ++ r)) := by
      simp [BForest.toks]
    rw [hGT]
    have e1 :
        Parser.stmts (k + 1 + 1)
            (feed (Tok.op '\x7b' :: (c.toks ++ Tok.op '\x7d' :: (rf.toks ++ r)))
              stab L) =
          ((Parser.stmts k
                (feed (c.toks ++ Tok.op '\x7d' :: (rf.toks ++ r))
                  (SymTable.nested [] stab) L)).bind
              (fun cmds st3 =>
                if st3.look.tagName ≠ "\x7d" then
                  PRes.err (PErr.missingClose st3.line) st3
                else
                  (Parser.matchTok (TagT.och '\x7d') st3).bind fun _ st4 =>
                    PRes.ok (AST.block cmds) { st4 with symtab := stab })).bind
            (fun b st1 =>
              (Parser.stmts (k + 1) st1).bind fun rest st2 =>
                PRes.ok (b :: rest) st2) := rfl
    rw [e1, hstep1]
    show (Parser.stmts (k + 1) (feed (rf.toks ++ r) stab L)).bind
        (fun rest st2 => PRes.ok (AST.block c.asts :: rest) st2) =
      PRes.ok (BForest.grow c rf).asts (feed r stab L)
    rw [hstep2]
    rfl

/-- C2: a program consisting only of well-nested `\x7b` `\x7d` pairs with no
statements between them parses successfully: `Parser.start` returns a
`Program` with one `Block` node per top-level pair (each holding only its
nested blocks), and the final parser state carries the same single empty
global scope the parse started with. -/
theorem c2_brace_blocks (f : BForest) :
    Parser.start (2 * f.size + 2) f.toks (SymTable.glob []) 1 =
      PRes.ok (AST.program f.asts) (feed [] (SymTable.glob []) 1) := by
  have h :=
    stmts_braces f (2 * f.size + 2) [] (SymTable.glob []) 1 (by omega)
      notStarter_eof
  rw [List.append_nil] at h
  have e1 :
      Parser.start (2 * f.size + 2) f.toks (SymTable.glob []) 1 =
        ((Parser.stmts (2 * f.size + 2)
              (feed f.toks (SymTable.glob []) 1)).bind
            (fun cmds st1 => PRes.ok (AST.program cmds) st1)).bind
          (fun astRoot st1 =>
            if st1.look.tagName ≠ "" then PRes.err PErr.trailing st1
            else PRes.ok astRoot st1) := rfl
  rw [e1, h]
  rfl

/-- C9 counterexample: `Parser.match` on a tag mismatch raises the
argumentless `ParseError()` — an error that names neither the expected tag
nor any line number (`lineOf` is `none`), contrary to the claimed
UnexpectedToken message. -/
theorem c9_counterexample :
    Parser.matchTok (TagT.och ';') (feed [Tok.num 1] (SymTable.glob []) 4) =
      PRes.err PErr.bare (feed [Tok.num 1] (SymTable.glob []) 4) ∧
    PErr.lineOf PErr.bare = Option.none := ⟨rfl, rfl⟩

/-- C9 (amended): a tag mismatch in `Parser.match` raises a bare
`ParseError` carrying no data at all — no expected tag and no line number —
and that error propagates unswallowed to `Parser.start`'s caller (shown on
a concrete program), while only the missing-brace and expected-value
errors carry a line number. -/
theorem c9_match_bare_error (t : TagT) (st : PSt)
    (h : st.look.tagOf ≠ t) :
    Parser.matchTok t st = PRes.err PErr.bare st ∧
    PErr.lineOf PErr.bare = Option.none ∧
    Parser.start 20 [Tok.kvar, Tok.num 1] (SymTable.glob []) 3 =
      PRes.err PErr.bare
        { look := Tok.num 1, toks := [], symtab := SymTable.glob [],
          line := 3 } := by
  refine ⟨?_, rfl, rfl⟩
  simp [Parser.matchTok, h]

/-- C9 witness: the bare match failure at a concrete state. -/
theorem c9_match_bare_error_witness :
    Parser.matchTok (TagT.och ':') (feed [Tok.num 7] (SymTable.glob []) 2) =
      PRes.err PErr.bare (feed [Tok.num 7] (SymTable.glob []) 2) ∧
    PErr.lineOf PErr.bare = Option.none ∧
    Parser.start 20 [Tok.kvar, Tok.num 1] (SymTable.glob []) 3 =
      PRes.err PErr.bare
        { look := Tok.num 1, toks := [], symtab := SymTable.glob [],
          line := 3 } :=
  c9_match_bare_error (TagT.och ':') (feed [Tok.num 7] (SymTable.glob []) 2)
    (by decide)

/-- The string-backed input stream of `istream.py`: the characters not yet
consumed, plus the `eof_reached` flag (set only when `get_char` is called
with the position at the end). -/
structure IStream where
  rest : List Char
  eof : Bool
deriving DecidableEq, Repr

/-- `InputStream.peek`: the character at the current position, or the empty
marker (`none`) past the end; does not consume. -/
def IStream.peekc (s : IStream) : Option Char := s.rest.head?

/-- The loop body of `Lexer._get_next_char` over the remaining characters:
tabs are skipped (`char in "\t"` is also true of the empty string, which
only re-checks eof and exits); a newline — or a carriage return whose
successor is a newline, without consuming that successor — increments the
line counter and comes back as a newline; any other character is returned
as is. The last component is the stream's `eof_reached` flag. -/
def gncCore : List Char → Nat → Option Char × List Char × Nat × Bool
  | [], line => (Option.none, [], line, true)
  | ch :: cs, line =>
    if ch = '\t' then gncCore cs line
    else if ch = '\n' then (some '\n', cs, line + 1, false)
    else if ch = '\r' ∧ cs.head? = some '\n' then (some '\n', cs, line + 1, false)
    else (some ch, cs, line, false)

theorem gncCore_spec (l : List Char) (n : Nat) :
    (gncCore l n).2.1.length ≤ l.length ∧
      ((gncCore l n).1 = Option.none ∨ (gncCore l n).2.1.length < l.length) := by
  induction l generalizing n with
  | nil => simp [gncCore]
  | cons ch cs ih =>
    by_cases h1 : ch = '\t'
    · have := ih n
      simp only [gncCore, h1, if_pos rfl]
      exact ⟨Nat.le_succ_of_le this.1,
        Or.elim this.2 (fun a => Or.inl a)
          (fun a => Or.inr (Nat.lt_succ_of_lt a))⟩
    · by_cases h2 : ch = '\n'
      · simp [gncCore, h1, h2]
      · by_cases h3 : ch = '\r' ∧ cs.head? = some '\n'
        · simp [gncCore, h1, h2, h3]
        · simp [gncCore, h1, h2, h3]

/-- `Lexer._get_next_char`: the next significant character (or the empty
end marker), together with the updated stream and line counter. -/
def getNextChar (s : IStream) (line : Nat) : Option Char × IStream × Nat :=
  if s.eof then (Option.none, s, line)
  else
    match gncCore s.rest line with
    | (c, r, l, e) => (c, ⟨r, e⟩, l)

/-- The `Lexer` state: the pending character `_peek` (`none` stands for the
empty end marker; a fresh lexer starts with a blank), the input stream,
the `_line` and `_cached_line` counters, the identifier table, and the two
bits of `_logged_token` (the plain `True` assignments set the EXPRESSION
bit and clear BLOCK; `|=` sets one bit; `NONE` clears both). -/
structure LexSt where
  peek : Option Char
  istream : IStream
  line : Nat
  cachedLine : Nat
  idTable : List (String × Tok)
  loggedExpr : Bool
  loggedBlock : Bool
deriving DecidableEq, Repr

/-- `self._peek = self._get_next_char()`. -/
def lexStep (st : LexSt) : LexSt :=
  match getNextChar st.istream st.line with
  | (c, s, l) => { st with peek := c, istream := s, line := l }

/-- Termination measure for the lexer's character loops: remaining input
plus one while the pending character still satisfies the loop's guard. -/
def chMeasure (p : Option Char → Bool) (st : LexSt) : Nat :=
  st.istream.rest.length + (if p st.peek then 1 else 0)

theorem lexStep_chMeasure (p : Option Char → Bool)
    (hp : p Option.none = false) (st : LexSt) :
    chMeasure p (lexStep st) ≤ st.istream.rest.length := by
  unfold chMeasure lexStep getNextChar
  by_cases he : st.istream.eof
  · simp [he, hp]
  · have h := gncCore_spec st.istream.rest st.line
    simp only [he, if_neg (by simp : ¬ (False : Prop))]
    rcases hg : gncCore st.istream.rest st.line with ⟨c, r, l, e⟩
    rw [hg] at h
    rcases h with ⟨hle, hnone | hlt⟩
    · simp only at hle hnone
      simp [hnone, hp]
      omega
    · simp only at hle hlt
      by_cases hc : p c <;> simp [hc] <;> omega

/-- Python `str.isspace()` on the characters this embedding covers (ASCII
sources); the empty end marker is not a space. -/
def isSpaceChar (c : Char) : Bool :=
  c = ' ' ∨ c = '\n' ∨ c = '\t' ∨ c = '\r' ∨ c = '\x0b' ∨ c = '\x0c'

def optSpace : Option Char → Bool
  | Option.none => false
  | some c => isSpaceChar c

def optDigit : Option Char → Bool
  | Option.none => false
  | some c => c.isDigit

def optAlpha : Option Char → Bool
  | Option.none => false
  | some c => c.isAlpha

/-- The guard of the line-comment loop: `peek != "\n" and peek != ""`. -/
def notNlOrEnd : Option Char → Bool
  | Option.none => false
  | some c => c ≠ '\n'

/-- `Lexer._log_line_interrupt`: with the EXPRESSION bit set it consumes
one character and synthesizes a `;` token; otherwise it only advances the
cached display line. Both logged bits end cleared. -/
def logLineInterrupt (st : LexSt) : Option Tok × LexSt :=
  if st.loggedExpr then
    (some (Tok.op ';'),
      { lexStep st with loggedExpr := false, loggedBlock := false })
  else if st.loggedBlock then
    (Option.none,
      { st with
        cachedLine := st.line + 1
        loggedExpr := false
        loggedBlock := false })
  else
    (Option.none,
      { st with
        cachedLine := st.line + 1
        loggedExpr := false
        loggedBlock := false })

/-- The whitespace loop at the top of `Lexer.scan`, run on explicit gas
(structural recursion; `skipWs` supplies gas that provably suffices, so
the gas-0 case is never reached on that call). Skips spaces; on each
newline runs `_log_line_interrupt` (inlined: with the EXPRESSION bit set
the interrupt consumes one character and the scan returns a synthesized
`;`; otherwise the cached line advances, the newline is consumed, and the
loop continues). -/
def skipWsG : Nat → LexSt → Option Tok × LexSt
  | 0, st => (Option.none, st)
  | g + 1, st =>
    if optSpace st.peek then
      if st.peek = some '\n' then
        if st.loggedExpr then
          (some (Tok.op ';'),
            { lexStep st with loggedExpr := false, loggedBlock := false })
        else
          skipWsG g
            (lexStep
              { st with
                cachedLine := st.line + 1
                loggedExpr := false
                loggedBlock := false })
      else skipWsG g (lexStep st)
    else (Option.none, st)

/-- The whitespace loop with its sufficient gas. -/
def skipWs (st : LexSt) : Option Tok × LexSt :=
  skipWsG (chMeasure optSpace st) st

theorem skipWsG_notSpace (g : Nat) (st : LexSt)
    (h : optSpace st.peek = false) : skipWsG g st = (Option.none, st) := by
  cases g <;> simp [skipWsG, h]

theorem skipWs_notSpace (st : LexSt) (h : optSpace st.peek = false) :
    skipWs st = (Option.none, st) :=
  skipWsG_notSpace _ st h

/-- The digit-collecting loop of `Lexer.scan` region 2, on explicit gas. -/
def collectDigitsG : Nat → LexSt → List Char × LexSt
  | 0, st => ([], st)
  | g + 1, st =>
    match st.peek with
    | some c =>
      if c.isDigit then
        let p := collectDigitsG g (lexStep st)
        (c :: p.1, p.2)
      else ([], st)
    | Option.none => ([], st)

/-- The maximal digit run at the pending character. -/
def collectDigits (st : LexSt) : List Char × LexSt :=
  collectDigitsG (chMeasure optDigit st) st

/-- The alphabetic-collecting loop of `Lexer.scan` region 3, on explicit
gas. -/
def collectAlphaG : Nat → LexSt → List Char × LexSt
  | 0, st => ([], st)
  | g + 1, st =>
    match st.peek with
    | some c =>
      if c.isAlpha then
        let p := collectAlphaG g (lexStep st)
        (c :: p.1, p.2)
      else ([], st)
    | Option.none => ([], st)

/-- The maximal alphabetic run at the pending character. -/
def collectAlpha (st : LexSt) : List Char × LexSt :=
  collectAlphaG (chMeasure optAlpha st) st

theorem collectAlphaG_notAlpha (g : Nat) (st : LexSt)
    (h : optAlpha st.peek = false) : collectAlphaG g st = ([], st) := by
  cases g with
  | zero => rfl
  | succ g =>
    cases hp : st.peek with
    | none => simp [collectAlphaG, hp]
    | some c =>
      rw [hp] at h
      simp [collectAlphaG, hp, optAlpha] at h ⊢
      simp [h]

theorem collectAlphaG_irrel (g : Nat) :
    ∀ (st : LexSt), chMeasure optAlpha st ≤ g →
      collectAlphaG g st = collectAlpha st := by
  induction g using Nat.strong_induction_on with
  | _ g ih =>
    intro st hg
    by_cases ha : optAlpha st.peek
    · obtain ⟨c, hc⟩ : ∃ c, st.peek = some c := by
        cases hp : st.peek
        · rw [hp] at ha; exact absurd ha (by simp [optAlpha])
        · exact ⟨_, rfl⟩
      have hca : c.isAlpha = true := by
        rw [hc] at ha; simpa [optAlpha] using ha
      have hlen : st.istream.rest.length + 1 ≤ g := by
        simpa [chMeasure, ha] using hg
      obtain ⟨g', rfl⟩ : ∃ g', g = g' + 1 := ⟨g - 1, by omega⟩
      have hm : chMeasure optAlpha st = st.istream.rest.length + 1 := by
        simp [chMeasure, ha]
      rw [collectAlpha, hm]
      simp only [collectAlphaG, hc, hca, if_pos rfl]
      have hrec1 : collectAlphaG g' (lexStep st) = collectAlpha (lexStep st) :=
        ih g' (by omega) (lexStep st)
          (le_trans (lexStep_chMeasure optAlpha rfl st) (by omega))
      have hrec2 :
          collectAlphaG st.istream.rest.length (lexStep st) =
            collectAlpha (lexStep st) :=
        ih st.istream.rest.length (by omega) (lexStep st)
          (lexStep_chMeasure optAlpha rfl st)
      rw [hrec1, hrec2]
    · rw [collectAlphaG_notAlpha g st (by simpa using ha), collectAlpha,
        collectAlphaG_notAlpha _ st (by simpa using ha)]

/-- The loop equation of `collectAlpha`, as `Lexer.scan` region 3 reads. -/
theorem collectAlpha_eq (st : LexSt) :
    collectAlpha st =
      match st.peek with
      | some c =>
        if c.isAlpha then
          ((c :: (collectAlpha (lexStep st)).1, (collectAlpha (lexStep st)).2)
            : List Char × LexSt)
        else ([], st)
      | Option.none => ([], st) := by
  cases hp : st.peek with
  | none =>
    have := collectAlphaG_notAlpha (chMeasure optAlpha st) st (by simp [optAlpha, hp])
    rw [collectAlpha] at *
    simp [this]
  | some c =>
    by_cases hca : c.isAlpha
    · have hm : chMeasure optAlpha st = st.istream.rest.length + 1 := by
        simp [chMeasure, optAlpha, hp, hca]
      rw [collectAlpha, hm]
      simp only [collectAlphaG, hp, hca, if_pos rfl]
      rw [collectAlphaG_irrel st.istream.rest.length (lexStep st)
        (lexStep_chMeasure optAlpha rfl st)]
    · have := collectAlphaG_notAlpha (chMeasure optAlpha st) st
        (by simp [optAlpha, hp, hca])
      rw [collectAlpha] at *
      simp [this, hca]

/-- The line-comment loop (consume up to the next newline or the end of
input), on explicit gas. -/
def skipLineCommentG : Nat → LexSt → LexSt
  | 0, st => st
  | g + 1, st =>
    if notNlOrEnd st.peek then skipLineCommentG g (lexStep st)
    else st

/-- The line-comment loop with its sufficient gas. -/
def skipLineComment (st : LexSt) : LexSt :=
  skipLineCommentG (chMeasure notNlOrEnd st) st

/-- `Lexer._nesting_comment`, fueled (the loop does not terminate on an
unterminated comment): `s0 s1` is the opening delimiter pair, `s2 s3` the
closing one. One fuel unit per pass: leave the outer loop at nesting 0;
close one level when the pending character and the stream's next one form
`s2 s3`; otherwise run the inner body — consume, note and skip a newline,
and on seeing `s0 s1` open one more level. `none` is fuel exhaustion. -/
def ncLoop (fuel : Nat) (s0 s1 s2 s3 : Char) (nesting : Nat) (hadNl : Bool)
    (st : LexSt) : Option (Bool × LexSt) :=
  match fuel with
  | 0 => Option.none
  | fuel + 1 =>
    if nesting = 0 then some (hadNl, st)
    else if st.peek = some s2 ∧ st.istream.peekc = some s3 then
      ncLoop fuel s0 s1 s2 s3 (nesting - 1) hadNl (lexStep (lexStep st))
    else
      let stA := lexStep st
      let q := if stA.peek = some '\n' then (true, lexStep stA) else (hadNl, stA)
      if q.2.peek = some s0 ∧ q.2.istream.peekc = some s1 then
        ncLoop fuel s0 s1 s2 s3 (nesting + 1) q.1 (lexStep (lexStep q.2))
      else
        ncLoop fuel s0 s1 s2 s3 nesting q.1 q.2

/-- The decimal value of a digit run, as `int()` computes it. -/
def digitsToNat (cs : List Char) : Nat :=
  cs.foldl (fun n c => n * 10 + (c.toNat - 48)) 0

/-- Result of one `Lexer.scan` call: a token with the post-scan lexer
state, or `stuck` when the step budget runs out (models the scanner's
nontermination, e.g. on an unterminated nested comment). -/
inductive ScanRes where
  | stuck
  | tok (t : Tok) (st : LexSt)
deriving DecidableEq, Repr

/-- Region 5 of `Lexer.scan`: the empty pending character is the end
marker, returned without consuming anything; a stray blank is consumed and
the outer loop continues (`Sum.inr`); any other character becomes a
single-character token, sets the BLOCK or EXPRESSION logged bit (unless
EXPRESSION is already set), and is consumed. -/
def passOper (st : LexSt) : ScanRes ⊕ LexSt :=
  match st.peek with
  | Option.none => .inl (.tok Tok.eof st)
  | some c =>
    if c = ' ' ∨ c = '\r' ∨ c = '\t' then .inr (lexStep st)
    else
      let logged :=
        if st.loggedExpr then (st.loggedExpr, st.loggedBlock)
        else if c = '\x7b' ∨ c = '\x7d' ∨ c = ',' ∨ c = ';' then
          (st.loggedExpr, true)
        else (true, st.loggedBlock)
      .inl (.tok (Tok.op c)
        { lexStep st with loggedExpr := logged.1, loggedBlock := logged.2 })

/-- Region 4 of `Lexer.scan`, `/` comments: `//` line comments and `/*`
nested comments; anything else falls to region 5. -/
def passSlash (fuel : Nat) (st : LexSt) : ScanRes ⊕ LexSt :=
  if st.peek = some '/' then
    if st.istream.peekc = some '/' then
      let st1 := skipLineComment st
      if st1.peek = some '\n' then
        match logLineInterrupt st1 with
        | (some t, st2) => .inl (.tok t st2)
        | (Option.none, st2) => .inr (lexStep st2)
      else passOper st1
    else if st.istream.peekc = some '*' then
      match ncLoop fuel '/' '*' '*' '/' 1 false st with
      | Option.none => .inl .stuck
      | some (hadNl, st1) =>
        if hadNl then
          if st1.loggedExpr ∨ st1.loggedBlock then
            match logLineInterrupt st1 with
            | (some t, st2) => .inl (.tok t st2)
            | (Option.none, st2) => .inr (lexStep st2)
          else .inr (lexStep st1)
        else .inr st1
    else passOper st
  else passOper st

/-- Region 4 of `Lexer.scan`, `#` comments: `#<` starts a nested comment
(interrupt handling plus one consumed character when it contained a
newline), any other `#` a line comment — which at end of input falls
through to region 5. -/
def passHash (fuel : Nat) (st : LexSt) : ScanRes ⊕ LexSt :=
  if st.peek = some '#' then
    if st.istream.peekc = some '<' then
      match ncLoop fuel '#' '<' '>' '#' 1 false st with
      | Option.none => .inl .stuck
      | some (hadNl, st1) =>
        if hadNl then
          if st1.loggedExpr ∨ st1.loggedBlock then
            match logLineInterrupt st1 with
            | (some t, st2) => .inl (.tok t st2)
            | (Option.none, st2) => .inr (lexStep st2)
          else .inr (lexStep st1)
        else .inr st1
    else
      let st1 := skipLineComment st
      if st1.peek = some '\n' then
        match logLineInterrupt st1 with
        | (some t, st2) => .inl (.tok t st2)
        | (Option.none, st2) => .inr (lexStep st2)
      else passSlash fuel st1
  else passSlash fuel st

/-- Region 3 of `Lexer.scan`: an alphabetic run is looked up in the
identifier table; a hit returns the stored token, a miss interns and
returns a fresh `Id` token. -/
def passIdent (fuel : Nat) (st : LexSt) : ScanRes ⊕ LexSt :=
  if optAlpha st.peek then
    let p := collectAlpha st
    let s := String.mk p.1
    match p.2.idTable.lookup s with
    | some tokenFound =>
      .inl (.tok tokenFound { p.2 with loggedExpr := true, loggedBlock := false })
    | Option.none =>
      .inl (.tok (Tok.id s)
        { p.2 with
          idTable := p.2.idTable ++ [(s, Tok.id s)]
          loggedExpr := true
          loggedBlock := false })
  else passHash fuel st

/-- Region 2 of `Lexer.scan`: a digit run becomes a NUM token unless a
decimal point follows, in which case the fractional digits are collected
and discarded and control falls through to the identifier region (the
documented incomplete float path). -/
def passNum (fuel : Nat) (st : LexSt) : ScanRes ⊕ LexSt :=
  if optDigit st.peek then
    let p := collectDigits st
    if p.2.peek ≠ some '.' then
      .inl (.tok (Tok.num (digitsToNat p.1))
        { p.2 with loggedExpr := true, loggedBlock := false })
    else
      let q := collectDigits (lexStep p.2)
      passIdent fuel q.2
  else passIdent fuel st

/-- One pass of the `while True` body of `Lexer.scan`: `Sum.inl` is a
returned token (or fuel exhaustion inside a nested comment), `Sum.inr`
the state a `continue` loops back with. Region 0 consumes a
backslash-newline pair and continues; region 1 is the whitespace loop
(which may return a synthesized `;`); the rest is regions 2-5. -/
def scanPass (fuel : Nat) (st : LexSt) : ScanRes ⊕ LexSt :=
  if st.peek = some '\\' ∧ st.istream.peekc = some '\n' then
    .inr (lexStep (lexStep st))
  else
    match skipWs st with
    | (some t, st1) => .inl (.tok t st1)
    | (Option.none, st1) => passNum fuel st1

/-- `Lexer.scan`: iterate `scanPass` until it returns, one pass per fuel
unit. -/
def scan : Nat → LexSt → ScanRes
  | 0, _ => .stuck
  | fuel + 1, st =>
    match scanPass fuel st with
    | .inl r => r
    | .inr st1 => scan fuel st1

/-- `Lexer._init_id_table`: the reserved words pre-seeded at lexer
construction — `true`, `false`, and the fixed type names. -/
def initIdTable : List (String × Tok) :=
  [("true", Tok.ktrue), ("false", Tok.kfalse), ("int", Tok.type "int"),
    ("float", Tok.type "float"), ("double", Tok.type "double"),
    ("bool", Tok.type "bool"), ("char", Tok.type "char"),
    ("str", Tok.type "str"), ("i8", Tok.type "i8"),
    ("i16", Tok.type "i16"), ("u16", Tok.type "u16"),
    ("u32", Tok.type "u32"), ("i64", Tok.type "i64"),
    ("u64", Tok.type "u64"), ("void", Tok.type "void")]

/-- A fresh `Lexer` over the given source text: the pending character is a
blank, both line counters are 1, the identifier table is seeded with the
reserved words, and nothing is logged yet. -/
def lexInit (input : List Char) : LexSt :=
  { peek := some ' '
    istream := ⟨input, false⟩
    line := 1
    cachedLine := 1
    idTable := initIdTable
    loggedExpr := false
    loggedBlock := false }


theorem isAlpha_ne (c : Char) (h : c.isAlpha = true) (x : Char)
    (hx : x.isAlpha = false) : c ≠ x := by
  intro he
  rw [he, hx] at h
  exact Bool.noConfusion h

theorem isSpaceChar_false_of_alpha (c : Char) (h : c.isAlpha = true) :
    isSpaceChar c = false := by
  cases hs : isSpaceChar c
  · rfl
  · exfalso
    simp only [isSpaceChar, decide_eq_true_eq] at hs
    rcases hs with rfl | rfl | rfl | rfl | rfl | rfl <;> exact absurd h (by decide)

theorem isDigit_false_of_alpha (c : Char) (h : c.isAlpha = true) :
    c.isDigit = false := by
  cases hd : c.isDigit
  · rfl
  · exfalso
    simp only [Char.isAlpha, Char.isUpper, Char.isLower, Bool.or_eq_true,
      Bool.and_eq_true, decide_eq_true_eq] at h
    simp only [Char.isDigit, Bool.and_eq_true, decide_eq_true_eq] at hd
    obtain ⟨d1, d2⟩ := hd
    have d1n : (48 : Nat) ≤ c.val.toNat := d1
    have d2n : c.val.toNat ≤ (57 : Nat) := d2
    rcases h with ⟨h1, h2⟩ | ⟨h1, h2⟩
    · have h1n : (65 : Nat) ≤ c.val.toNat := h1
      omega
    · have h1n : (97 : Nat) ≤ c.val.toNat := h1
      omega

theorem lexStep_plain (st : LexSt) (c : Char) (l : List Char)
    (hst : st.istream = ⟨c :: l, false⟩)
    (h1 : c ≠ '\t') (h2 : c ≠ '\n') (h3 : c ≠ '\r') :
    lexStep st = { st with peek := some c, istream := ⟨l, false⟩ } := by
  simp [lexStep, getNextChar, hst, gncCore, h1, h2, h3]

theorem collectAlpha_notAlpha (st : LexSt) (h : optAlpha st.peek = false) :
    collectAlpha st = ([], st) :=
  collectAlphaG_notAlpha _ st h

theorem collectAlpha_run (cs : List Char) :
    ∀ (st : LexSt) (c d : Char) (rest : List Char),
      c.isAlpha = true → (∀ x ∈ cs, x.isAlpha = true) →
      d.isAlpha = false → d ≠ '\t' → d ≠ '\n' → d ≠ '\r' →
      st.peek = some c → st.istream = ⟨cs ++ d :: rest, false⟩ →
      collectAlpha st =
        (c :: cs, { st with peek := some d, istream := ⟨rest, false⟩ }) := by
  induction cs with
  | nil =>
    intro st c d rest hc _ hd hd1 hd2 hd3 hp hs
    have hstep : lexStep st = { st with peek := some d, istream := ⟨rest, false⟩ } :=
      lexStep_plain st d rest (by simpa using hs) hd1 hd2 hd3
    rw [collectAlpha_eq, hp]
    simp only [hc, if_pos rfl, hstep]
    rw [collectAlpha_notAlpha _ (by simp [optAlpha, hd])]
    simp
  | cons x cs ih =>
    intro st c d rest hc hcs hd hd1 hd2 hd3 hp hs
    have hx : x.isAlpha = true := hcs x (List.mem_cons_self _ _)
    have hstep :
        lexStep st =
          { st with peek := some x, istream := ⟨cs ++ d :: rest, false⟩ } :=
      lexStep_plain st x (cs ++ d :: rest) (by simpa using hs)
        (isAlpha_ne x hx '\t' (by decide)) (isAlpha_ne x hx '\n' (by decide))
        (isAlpha_ne x hx '\r' (by decide))
    have hrec :=
      ih { st with peek := some x, istream := ⟨cs ++ d :: rest, false⟩ }
        x d rest hx (fun y hy => hcs y (List.mem_cons_of_mem _ hy)) hd hd1 hd2
        hd3 rfl rfl
    rw [collectAlpha_eq, hp]
    simp only [hc, if_pos rfl, hstep, hrec]
    simp


theorem lookup_append_self (l : List (String × Tok)) (s : String) (t : Tok)
    (h : l.lookup s = Option.none) : (l ++ [(s, t)]).lookup s = some t := by
  induction l with
  | nil => simp [List.lookup]
  | cons e es ih =>
    obtain ⟨k, v⟩ := e
    simp only [List.lookup, List.cons_append] at h ⊢
    cases hbe : s == k
    · rw [hbe] at h
      simp only at h
      simp only [hbe]
      exact ih h
    · rw [hbe] at h
      simp at h

/-- C7: within one lexer, scanning an alphabetic run is an interning
round-trip. If the identifier table already maps the spelling (as it does
for every pre-seeded reserved word, and for every identifier scanned
before), `scan` returns exactly the stored token and leaves the table
unchanged — so every occurrence of a spelling yields the same interned
token on every scan. If the spelling is novel, `scan` creates one `Id`
token, appends it to the table, and returns it; the table then maps the
spelling to that very token, so a second scan of the same spelling returns
the identical interned token. -/
theorem c7_interning (fuel : Nat) (st : LexSt) (c d : Char)
    (cs rest : List Char)
    (hc : c.isAlpha = true) (hcs : ∀ x ∈ cs, x.isAlpha = true)
    (hd : d.isAlpha = false) (hd1 : d ≠ '\t') (hd2 : d ≠ '\n') (hd3 : d ≠ '\r')
    (hp : st.peek = some c) (hs : st.istream = ⟨cs ++ d :: rest, false⟩) :
    (∀ tok, st.idTable.lookup (String.mk (c :: cs)) = some tok →
      scan (fuel + 1) st =
        ScanRes.tok tok
          { st with
            peek := some d
            istream := ⟨rest, false⟩
            loggedExpr := true
            loggedBlock := false }) ∧
    (st.idTable.lookup (String.mk (c :: cs)) = Option.none →
      scan (fuel + 1) st =
        ScanRes.tok (Tok.id (String.mk (c :: cs)))
          { st with
            peek := some d
            istream := ⟨rest, false⟩
            idTable :=
              st.idTable ++ [(String.mk (c :: cs), Tok.id (String.mk (c :: cs)))]
            loggedExpr := true
            loggedBlock := false } ∧
      (st.idTable ++
            [(String.mk (c :: cs), Tok.id (String.mk (c :: cs)))]).lookup
          (String.mk (c :: cs)) =
        some (Tok.id (String.mk (c :: cs)))) := by
  have hrun := collectAlpha_run cs st c d rest hc hcs hd hd1 hd2 hd3 hp hs
  have h0 : ¬(st.peek = some '\\' ∧ st.istream.peekc = some '\n') := by
    rw [hp]
    rintro ⟨hh, -⟩
    injection hh with hh
    exact isAlpha_ne c hc '\\' (by decide) hh
  have hsw : skipWs st = (Option.none, st) :=
    skipWs_notSpace st
      (by rw [hp]; simp [optSpace, isSpaceChar_false_of_alpha c hc])
  have hnum : optDigit st.peek = false := by
    rw [hp]; simp [optDigit, isDigit_false_of_alpha c hc]
  have halpha : optAlpha st.peek = true := by
    rw [hp]; simpa [optAlpha] using hc
  constructor
  · intro tok htok
    simp only [scan, scanPass, if_neg h0, hsw, passNum, hnum, Bool.false_eq_true,
      if_false, passIdent, halpha, if_true, hrun, htok]
  · intro hnone
    refine ⟨?_, ?_⟩
    · simp only [scan, scanPass, if_neg h0, hsw, passNum, hnum,
        Bool.false_eq_true, if_false, passIdent, halpha, if_true, hrun, hnone]
    · exact lookup_append_self st.idTable (String.mk (c :: cs))
        (Tok.id (String.mk (c :: cs))) hnone


/-- C7 witness: a pre-seeded reserved word (`int`) scans to the stored
`Type` token with the table unchanged, and a novel identifier (`foo`)
scans to a fresh interned `Id` token which the table afterwards maps that
spelling to. -/
theorem c7_interning_witness :
    scan 50
        { peek := some 'i', istream := ⟨"nt int".toList, false⟩, line := 1,
          cachedLine := 1, idTable := initIdTable, loggedExpr := false,
          loggedBlock := false } =
      ScanRes.tok (Tok.type "int")
        { peek := some ' ', istream := ⟨"int".toList, false⟩, line := 1,
          cachedLine := 1, idTable := initIdTable, loggedExpr := true,
          loggedBlock := false } ∧
    scan 50
        { peek := some 'f', istream := ⟨"oo foo".toList, false⟩, line := 1,
          cachedLine := 1, idTable := initIdTable, loggedExpr := false,
          loggedBlock := false } =
      ScanRes.tok (Tok.id "foo")
        { peek := some ' ', istream := ⟨"foo".toList, false⟩, line := 1,
          cachedLine := 1, idTable := initIdTable ++ [("foo", Tok.id "foo")],
          loggedExpr := true, loggedBlock := false } ∧
    (initIdTable ++ [("foo", Tok.id "foo")]).lookup "foo" =
      some (Tok.id "foo") := by
  refine ⟨?_, ?_, ?_⟩
  · exact (c7_interning 49
      { peek := some 'i', istream := ⟨"nt int".toList, false⟩, line := 1,
        cachedLine := 1, idTable := initIdTable, loggedExpr := false,
        loggedBlock := false } 'i' ' ' ['n', 't'] ("int".toList) rfl
      (by decide) (by decide) (by decide) (by decide) (by decide) rfl rfl).1
      (Tok.type "int") rfl
  · exact ((c7_interning 49
      { peek := some 'f', istream := ⟨"oo foo".toList, false⟩, line := 1,
        cachedLine := 1, idTable := initIdTable, loggedExpr := false,
        loggedBlock := false } 'f' ' ' ['o', 'o'] ("foo".toList) rfl
      (by decide) (by decide) (by decide) (by decide) (by decide) rfl
      rfl).2 rfl).1
  · exact ((c7_interning 49
      { peek := some 'f', istream := ⟨"oo foo".toList, false⟩, line := 1,
        cachedLine := 1, idTable := initIdTable, loggedExpr := false,
        loggedBlock := false } 'f' ' ' ['o', 'o'] ("foo".toList) rfl
      (by decide) (by decide) (by decide) (by decide) (by decide) rfl
      rfl).2 rfl).2

/-- C10: once the pending character is the empty end marker and the
character source is exhausted, every `Lexer.scan` call returns the
end-marker token (tag name `""`) with the lexer state unchanged — so
repeated calls keep returning the end marker without consuming anything,
and `Tok.eof.tagName` is the empty string. -/
theorem c10_scan_after_eof (fuel : Nat) (st : LexSt)
    (hp : st.peek = Option.none) (hr : st.istream.rest = []) :
    scan (fuel + 1) st = ScanRes.tok Tok.eof st ∧ Tok.eof.tagName = "" := by
  have hsw : skipWs st = (Option.none, st) :=
    skipWs_notSpace st (by rw [hp]; rfl)
  constructor
  · simp only [scan, scanPass, hp, hsw, passNum, passIdent, passHash,
      passSlash, passOper, optDigit, optAlpha]
    simp
  · rfl

/-- C10 witness: the exhausted lexer keeps returning the end marker. -/
theorem c10_scan_after_eof_witness :
    scan 60
        { peek := Option.none, istream := ⟨[], true⟩, line := 1,
          cachedLine := 1, idTable := initIdTable, loggedExpr := false,
          loggedBlock := false } =
      ScanRes.tok Tok.eof
        { peek := Option.none, istream := ⟨[], true⟩, line := 1,
          cachedLine := 1, idTable := initIdTable, loggedExpr := false,
          loggedBlock := false } ∧ Tok.eof.tagName = "" :=
  c10_scan_after_eof 59
    { peek := Option.none, istream := ⟨[], true⟩, line := 1, cachedLine := 1,
      idTable := initIdTable, loggedExpr := false, loggedBlock := false }
    rfl rfl


set_option maxRecDepth 10000

/-- No occurrence of the closing delimiter `>#` anywhere in the character
sequence. -/
def noCloser : List Char → Bool
  | a :: b :: rest =>
    if a = '>' ∧ b = '#' then false else noCloser (b :: rest)
  | _ => true

/-- The character sequence still to be processed: the pending character
(if any) followed by the unconsumed stream. -/
def combined (st : LexSt) : List Char :=
  (match st.peek with | some c => [c] | Option.none => []) ++ st.istream.rest

theorem noCloser_tail (a : Char) (l : List Char)
    (h : noCloser (a :: l) = true) : noCloser l = true := by
  cases l with
  | nil => rfl
  | cons b r =>
    simp only [noCloser] at h
    split at h
    · exact Bool.noConfusion h
    · exact h

theorem noCloser_cons (a : Char) (l : List Char) (hl : noCloser l = true)
    (ha : a ≠ '>') : noCloser (a :: l) = true := by
  cases l with
  | nil => rfl
  | cons b r =>
    simp only [noCloser]
    rw [if_neg (by rintro ⟨h1, -⟩; exact ha h1)]
    exact hl

theorem gncCore_noCloser (l : List Char) (n : Nat) (h : noCloser l = true) :
    noCloser
      ((match (gncCore l n).1 with | some c => [c] | Option.none => []) ++
        (gncCore l n).2.1) = true := by
  induction l generalizing n with
  | nil => simpa [gncCore] using h
  | cons ch cs ih =>
    have hcs : noCloser cs = true := noCloser_tail ch cs h
    by_cases h1 : ch = '\t'
    · simp only [gncCore]
      rw [if_pos h1]
      exact ih n hcs
    · by_cases h2 : ch = '\n'
      · simp only [gncCore]
        rw [if_neg h1, if_pos h2]
        exact noCloser_cons '\n' cs hcs (by decide)
      · by_cases h3 : ch = '\r' ∧ cs.head? = some '\n'
        · simp only [gncCore]
          rw [if_neg h1, if_neg h2, if_pos h3]
          exact noCloser_cons '\n' cs hcs (by decide)
        · simp only [gncCore]
          rw [if_neg h1, if_neg h2, if_neg h3]
          simpa using h

theorem lexStep_noCloser (st : LexSt) (h : noCloser (combined st) = true) :
    noCloser (combined (lexStep st)) = true := by
  have hrest : noCloser st.istream.rest = true := by
    unfold combined at h
    cases hp : st.peek
    · rw [hp] at h; simpa using h
    · rw [hp] at h
      exact noCloser_tail _ _ (by simpa using h)
  by_cases he : st.istream.eof
  · have hstep : lexStep st = { st with peek := Option.none } := by
      simp [lexStep, getNextChar, he]
    rw [hstep]
    unfold combined
    simpa using hrest
  · have hg := gncCore_noCloser st.istream.rest st.line hrest
    rcases hgc : gncCore st.istream.rest st.line with ⟨c, r, l2, e⟩
    rw [hgc] at hg
    have hstep : lexStep st = { st with peek := c, istream := ⟨r, e⟩, line := l2 } := by
      simp [lexStep, getNextChar, he, hgc]
    rw [hstep]
    unfold combined
    simpa using hg

theorem ncLoop_noCloser (fuel : Nat) :
    ∀ (n : Nat) (hadNl : Bool) (st : LexSt), 1 ≤ n →
      noCloser (combined st) = true →
      ncLoop fuel '#' '<' '>' '#' n hadNl st = Option.none := by
  induction fuel with
  | zero => intro n hadNl st _ _; rfl
  | succ fuel ih =>
    intro n hadNl st hn h
    have hcl : ¬(st.peek = some '>' ∧ st.istream.peekc = some '#') := by
      rintro ⟨hp, hq⟩
      unfold combined at h
      rw [hp] at h
      unfold IStream.peekc at hq
      cases hr : st.istream.rest with
      | nil => rw [hr] at hq; simp at hq
      | cons b r =>
        rw [hr] at hq h
        simp only [List.head?_cons, Option.some.injEq] at hq
        subst hq
        simp [noCloser] at h
    have hA : noCloser (combined (lexStep st)) = true := lexStep_noCloser st h
    simp only [ncLoop]
    rw [if_neg (by omega), if_neg hcl]
    by_cases hnl : (lexStep st).peek = some '\n'
    · have hB : noCloser (combined (lexStep (lexStep st))) = true :=
        lexStep_noCloser _ hA
      rw [if_pos hnl]
      dsimp only
      by_cases hop :
          (lexStep (lexStep st)).peek = some '#' ∧
            (lexStep (lexStep st)).istream.peekc = some '<'
      · rw [if_pos hop]
        exact ih (n + 1) true _ (by omega)
          (lexStep_noCloser _ (lexStep_noCloser _ hB))
      · rw [if_neg hop]
        exact ih n true _ hn hB
    · rw [if_neg hnl]
      dsimp only
      by_cases hop :
          (lexStep st).peek = some '#' ∧ (lexStep st).istream.peekc = some '<'
      · rw [if_pos hop]
        exact ih (n + 1) hadNl _ (by omega)
          (lexStep_noCloser _ (lexStep_noCloser _ hA))
      · rw [if_neg hop]
        exact ih n hadNl _ hn hA

theorem passHash_dead (fuel : Nat) (st : LexSt) (h1 : st.peek = some '#')
    (h2 : st.istream.peekc = some '<')
    (h3 : ncLoop fuel '#' '<' '>' '#' 1 false st = Option.none) :
    passHash fuel st = Sum.inl ScanRes.stuck := by
  simp [passHash, h1, h2, h3]

/-- The claimed comment input, with `#>` where the code's closing
delimiter is `>#`. -/
def c8badInput : List Char := "#< a #< nested #> still inside #> var".toList

/-- The same input with the code's actual closing delimiter `>#`. -/
def c8goodInput : List Char := "#< a #< nested ># still inside ># var".toList

/-- The good input with two newlines inside the comment. -/
def c8goodInputNl : List Char := "#< a\n#< nested\n># still inside ># var".toList

/-- The lexer state right after the leading blank of `c8badInput` is
skipped: pending `#`, the rest of the input unconsumed. -/
def c8stHash : LexSt :=
  { peek := some '#',
    istream := ⟨"< a #< nested #> still inside #> var".toList, false⟩,
    line := 1, cachedLine := 1, idTable := initIdTable, loggedExpr := false,
    loggedBlock := false }

/-- C8 counterexample: on the claim's literal input
`#< a #< nested #> still inside #> var` the scan does not resume at `var`
— it exhausts any budget (shown here at 300 outer passes; the amended
theorem shows exhaustion at every budget), because `#>` is not the
closing delimiter `>#` and the nested-comment loop never sees a closer. -/
theorem c8_counterexample : scan 300 (lexInit c8badInput) = ScanRes.stuck := by
  have h :=
    ncLoop_noCloser 299 1 false c8stHash (by omega) (by decide)
  have hpass : scanPass 299 (lexInit c8badInput) = passHash 299 c8stHash := rfl
  have hdead := passHash_dead 299 c8stHash rfl rfl h
  show (match scanPass 299 (lexInit c8badInput) with
        | Sum.inl r => r
        | Sum.inr st1 => scan 299 st1) = ScanRes.stuck
  rw [hpass, hdead]

/-- C8 (amended): the code's nested-comment closing delimiter is `>#`
(symbols `"#<>#"`), not `#>`. On the claim's literal input the lexer
never terminates: `scan` is stuck at every fuel. With the closers written
`>#` the comment is consumed through both closing markers at nesting
depth 2 and scanning resumes at `var`, returned as an (interned) `Id`
token; with two newlines inside the comment the line counter ends at 3 —
incremented once per newline encountered inside the comment. -/
theorem c8_nested_comment :
    (∀ fuel, scan fuel (lexInit c8badInput) = ScanRes.stuck) ∧
    scan 300 (lexInit c8goodInput) =
      ScanRes.tok (Tok.id "var")
        { peek := Option.none, istream := ⟨[], true⟩, line := 1,
          cachedLine := 1, idTable := initIdTable ++ [("var", Tok.id "var")],
          loggedExpr := true, loggedBlock := false } ∧
    scan 300 (lexInit c8goodInputNl) =
      ScanRes.tok (Tok.id "var")
        { peek := Option.none, istream := ⟨[], true⟩, line := 3,
          cachedLine := 1, idTable := initIdTable ++ [("var", Tok.id "var")],
          loggedExpr := true, loggedBlock := false } := by
  refine ⟨?_, rfl, rfl⟩
  intro fuel
  cases fuel with
  | zero => rfl
  | succ fuel =>
    have h := ncLoop_noCloser fuel 1 false c8stHash (by omega) (by decide)
    have hpass : scanPass fuel (lexInit c8badInput) = passHash fuel c8stHash :=
      rfl
    have hdead := passHash_dead fuel c8stHash rfl rfl h
    show (match scanPass fuel (lexInit c8badInput) with
          | Sum.inl r => r
          | Sum.inr st1 => scan fuel st1) = ScanRes.stuck
    rw [hpass, hdead]

end MiniLang
